import Mathlib

/-!
Verification of the policy graph and conflict-resolution engine of
`factory_3.py` (class `PolicyGraph`): clause store, interaction graph,
bounded-hop reachability (`get_related_policies`), conflict resolution
(`resolve_conflicts`, `_check_conditions`) and the policy renderer
(`generate_policy_text`).
-/

namespace TicketWorld

/-- Association-list lookup; the first binding wins.  Together with `aset`
this models a Python `dict` (insertion-ordered, update-in-place). -/
def alookup {α : Type} : List (String × α) → String → Option α
  | [], _ => none
  | (k, v) :: rest, key => if k = key then some v else alookup rest key

/-- Association-list assignment: update in place when the key exists,
otherwise append, as Python `dict` assignment does. -/
def aset {α : Type} : List (String × α) → String → α → List (String × α)
  | [], key, v => [(key, v)]
  | (k, w) :: rest, key, v =>
    if k = key then (key, v) :: rest else (k, w) :: aset rest key v

/-- Embedding of the `PolicyClause` dataclass (`factory_3.py`, lines 60-74). -/
structure PolicyClause where
  clause_id : String
  title : String := ""
  rule : String := ""
  conditions : List String := []
  interacts_with : List String := []
  modifies : List String := []
  modified_by : List String := []
  overrides : List String := []
  overridden_by : List String := []
  requires : List String := []
  precedence : Int := 5
  category : String := ""
  deriving DecidableEq, Inhabited

/-- The context dictionary, restricted to the keys `_check_conditions`
inspects; `none` models an absent key. -/
structure Context where
  has_receipt : Option Bool := none
  days_since_purchase : Option Int := none
  order_status : Option String := none
  item_value : Option Int := none
  months_since_purchase : Option Int := none
  deriving DecidableEq, Inhabited

/-- Embedding of the `PolicyGraph` state: the clause store (`self.clauses`)
and the interaction graph (`self.interaction_graph`), both insertion-ordered
dictionaries. -/
structure PolicyGraph where
  clauses : List (String × PolicyClause) := []
  interaction_graph : List (String × List String) := []
  deriving DecidableEq, Inhabited

/-- `PolicyGraph.add_clause` (lines 83-90): store the clause and record the
concatenation of its six relation lists as its interaction-graph entry. -/
def PolicyGraph.add_clause (g : PolicyGraph) (clause : PolicyClause) : PolicyGraph :=
  let all_interactions := clause.interacts_with ++ clause.modifies ++ clause.modified_by ++
      clause.overrides ++ clause.overridden_by ++ clause.requires
  { clauses := aset g.clauses clause.clause_id clause,
    interaction_graph := aset g.interaction_graph clause.clause_id all_interactions }

/-- The empty `PolicyGraph` (state after `__init__`). -/
def emptyGraph : PolicyGraph := {}

/-- A graph built by calling `add_clause` on each clause of a list in order. -/
def ofClauses (cs : List PolicyClause) : PolicyGraph :=
  cs.foldl PolicyGraph.add_clause emptyGraph

/-- Clause lookup as used inside `resolve_conflicts` (`self.clauses[cid]`);
the loop only ever looks up ids present in the store, so the default is
never reached in a run that passed the totality guard. -/
def clauseOf (g : PolicyGraph) (cid : String) : PolicyClause :=
  (alookup g.clauses cid).getD default

/-- One condition test of `_check_conditions` (lines 147-162): each branch
returns `false` exactly when the corresponding Python branch returns
`False`; unrecognized names pass. -/
def condPasses (ctx : Context) (condition : String) : Bool :=
  if condition = "receipt_required" then ctx.has_receipt.getD true
  else if condition = "within_return_window" then decide (ctx.days_since_purchase.getD 0 ≤ 30)
  else if condition = "within_price_match_window" then decide (ctx.days_since_purchase.getD 0 ≤ 14)
  else if condition = "order_not_shipped" then
    !(["shipped", "delivered"].contains (ctx.order_status.getD ""))
  else if condition = "item_over_500" then decide (ctx.item_value.getD 0 > 500)
  else if condition = "warranty_period" then decide (ctx.months_since_purchase.getD 0 ≤ 12)
  else true

/-- `_check_conditions`: every condition of the clause must pass. -/
def check_conditions (clause : PolicyClause) (ctx : Context) : Bool :=
  clause.conditions.all (condPasses ctx)

/-- Sort key of `resolve_conflicts` (`self.clauses[cid].precedence`). -/
def precedenceOf (g : PolicyGraph) (cid : String) : Int :=
  ((alookup g.clauses cid).map PolicyClause.precedence).getD 0

/-- Stable insertion of an id into a precedence-sorted list: an element is
placed before every element of equal key, so earlier list elements stay
first, as in Python `sorted`. -/
def orderedInsertByPrec (g : PolicyGraph) (cid : String) : List String → List String
  | [] => [cid]
  | x :: xs =>
    if precedenceOf g cid ≤ precedenceOf g x then cid :: x :: xs
    else x :: orderedInsertByPrec g cid xs

/-- Stable sort by precedence, modelling
`sorted(clause_ids, key=lambda cid: self.clauses[cid].precedence)`. -/
def sortByPrecedence (g : PolicyGraph) : List String → List String
  | [] => []
  | x :: xs => orderedInsertByPrec g x (sortByPrecedence g xs)

/-- The body of the `for clause_id in sorted_clauses` loop of
`resolve_conflicts` (lines 126-143): prune actives named in the candidate's
`overrides`, skip the candidate if a remaining active overrides it,
otherwise admit it when its conditions hold. -/
def resolveLoop (g : PolicyGraph) (ctx : Context) :
    List String → List String → List String
  | [], active_clauses => active_clauses
  | clause_id :: rest, active_clauses =>
    let clause := clauseOf g clause_id
    let pruned := active_clauses.filter (fun active_id => !(clause.overrides.contains active_id))
    let is_overridden :=
      pruned.any (fun active_id => (clauseOf g active_id).overrides.contains clause_id)
    if is_overridden then resolveLoop g ctx rest pruned
    else if check_conditions clause ctx then resolveLoop g ctx rest (pruned ++ [clause_id])
    else resolveLoop g ctx rest pruned

/-- `resolve_conflicts` (lines 119-145).  `none` models the `KeyError`
raised by the sort key when a candidate id is missing from the store;
otherwise the sorted candidates are folded through the loop body. -/
def resolve_conflicts (g : PolicyGraph) (clause_ids : List String) (ctx : Context) :
    Option (List String) :=
  if clause_ids.isEmpty then some []
  else if clause_ids.all (fun cid => (alookup g.clauses cid).isSome) then
    some (resolveLoop g ctx (sortByPrecedence g clause_ids) [])
  else none

/-- Neighbours in the interaction graph, as read by the traversal
(`if current_id in self.interaction_graph: for connected_id in ...`):
an absent key contributes no neighbours. -/
def adjOf (g : PolicyGraph) (x : String) : List String :=
  (alookup g.interaction_graph x).getD []

/-- Membership of an id in the visited set.  The Python set holds bare ids;
the embedding keeps, as ghost data, the hop count at which each id was
visited, and tests membership on the id component only. -/
def visitedContains (vis : List (String × Nat)) (x : String) : Bool :=
  vis.any (fun p => p.1 = x)

/-- The `while to_visit` loop of `get_related_policies` (lines 97-116), as
a fuel-indexed step function: pop the front of the queue, skip it when
already visited or beyond `max_hops`, otherwise visit it, record it (unless
it is the start), and enqueue its not-yet-visited neighbours with hop
count one higher.  `none` is returned only on fuel exhaustion, which
`bfs_isSome` below shows cannot happen from the initial state. -/
def bfsAux (g : PolicyGraph) (start : String) (max_hops : Nat) :
    Nat → List (String × Nat) → List (String × Nat) → List String →
    Option (List String × List (String × Nat))
  | _, [], visited, related => some (related, visited)
  | 0, _ :: _, _, _ => none
  | fuel + 1, (current_id, hops) :: rest, visited, related =>
    if visitedContains visited current_id || decide (hops > max_hops) then
      bfsAux g start max_hops fuel rest visited related
    else
      let visited' := (current_id, hops) :: visited
      let related' := if current_id = start then related else related ++ [current_id]
      let nbrs := (adjOf g current_id).filter (fun y => !(visitedContains visited' y))
      bfsAux g start max_hops fuel (rest ++ nbrs.map (fun y => (y, hops + 1))) visited' related'

/-- An upper bound on the length of any interaction-graph entry. -/
def maxAdjLen (g : PolicyGraph) : Nat :=
  g.interaction_graph.foldr (fun p m => max p.2.length m) 0

/-- Every id that can ever appear in the traversal queue: the start id and
every id occurring in some interaction-graph entry. -/
def bfsUniverse (g : PolicyGraph) (start : String) : List String :=
  start :: (g.interaction_graph.map Prod.snd).flatten

/-- Fuel sufficient for the traversal to drain its queue. -/
def bfsFuel (g : PolicyGraph) (start : String) : Nat :=
  (maxAdjLen g + 1) * (bfsUniverse g start).length + 1

/-- `get_related_policies` (lines 92-117): return `[]` for an id missing
from the clause store, otherwise run the traversal from `(clause_id, 0)`. -/
def get_related_policies (g : PolicyGraph) (clause_id : String) (max_hops : Nat) :
    List String :=
  if (alookup g.clauses clause_id).isSome then
    match bfsAux g clause_id max_hops (bfsFuel g clause_id) [(clause_id, 0)] [] [] with
    | some (related, _) => related
    | none => []
  else []

/-- Ids within `n` hops of `start` along interaction-graph edges (the ball
of radius `n`); the reference notion of reachability used to characterise
the traversal. -/
def dball (g : PolicyGraph) (start : String) : Nat → List String
  | 0 => [start]
  | n + 1 => dball g start n ++ (dball g start n).flatMap (adjOf g)

/-- One step of the category grouping of `generate_policy_text` (lines
166-170): append the clause to its category's bucket, creating the bucket
at the end on first encounter. -/
def categoryStep (cats : List (String × List PolicyClause)) (c : PolicyClause) :
    List (String × List PolicyClause) :=
  if cats.any (fun p => p.1 = c.category) then
    cats.map (fun p => if p.1 = c.category then (p.1, p.2 ++ [c]) else p)
  else cats ++ [(c.category, [c])]

/-- Category grouping of `generate_policy_text`: a dictionary of lists
keyed by category, insertion-ordered on first encounter, each bucket
keeping clause-store order. -/
def categoriesFold (cs : List PolicyClause) : List (String × List PolicyClause) :=
  cs.foldl categoryStep []

/-- Stable insertion of a clause into an id-sorted list. -/
def orderedInsertById (c : PolicyClause) : List PolicyClause → List PolicyClause
  | [] => [c]
  | x :: xs =>
    if c.clause_id ≤ x.clause_id then c :: x :: xs else x :: orderedInsertById c xs

/-- `sorted(clauses, key=lambda c: c.clause_id)`. -/
def sortByClauseId : List PolicyClause → List PolicyClause
  | [] => []
  | x :: xs => orderedInsertById x (sortByClauseId xs)

/-- The underline emitted under a category header, `"=" * len(category)`. -/
def eqUnderline (s : String) : String :=
  String.mk (List.replicate s.length '=')

/-- The list entries appended for one clause (lines 175-178): the
`[id] title` line (with its leading newline), the `Rule:` line, and a
`Conditions:` line when the clause has conditions. -/
def clausePieces (c : PolicyClause) : List String :=
  ["\n[" ++ c.clause_id ++ "] " ++ c.title, "Rule: " ++ c.rule] ++
    (if c.conditions.isEmpty then [] else ["Conditions: " ++ String.intercalate ", " c.conditions])

/-- The list entries appended for one category (lines 172-178). -/
def categoryPieces (p : String × List PolicyClause) : List String :=
  ["\n" ++ p.1, eqUnderline p.1] ++ (sortByClauseId p.2).flatMap clausePieces

/-- The `policy_text` list built by `generate_policy_text`. -/
def policyTextPieces (g : PolicyGraph) : List String :=
  (categoriesFold (g.clauses.map Prod.snd)).flatMap categoryPieces

/-- `generate_policy_text` (lines 164-184): join `policy_text` with newlines. -/
def generate_policy_text (g : PolicyGraph) : String :=
  String.intercalate "\n" (policyTextPieces g)

/-! ## Basic lemmas about the association-list operations -/

theorem alookup_aset_self {α : Type} (l : List (String × α)) (k : String) (v : α) :
    alookup (aset l k v) k = some v := by
  induction l with
  | nil => simp [aset, alookup]
  | cons p rest ih =>
    obtain ⟨k1, v1⟩ := p
    by_cases h : k1 = k
    · simp [aset, h, alookup]
    · simp [aset, h, alookup, ih]

theorem alookup_mem {α : Type} {l : List (String × α)} {k : String} {v : α}
    (h : alookup l k = some v) : (k, v) ∈ l := by
  induction l with
  | nil => simp [alookup] at h
  | cons p rest ih =>
    obtain ⟨k1, v1⟩ := p
    by_cases hk : k1 = k
    · rw [alookup, if_pos hk] at h
      cases h
      subst hk
      exact List.mem_cons_self _ _
    · rw [alookup, if_neg hk] at h
      exact List.mem_cons_of_mem _ (ih h)

/-! ## Concrete rulesets used by the counterexamples and witnesses -/

/-- RETURN-001 of the spec scenario: precedence 3, return-window condition. -/
def scn3Return1 : PolicyClause :=
  { clause_id := "RETURN-001", precedence := 3, conditions := ["within_return_window"] }

/-- RETURN-002 of the spec scenario: precedence 4, no conditions. -/
def scn3Return2 : PolicyClause :=
  { clause_id := "RETURN-002", precedence := 4, overridden_by := ["RETURN-004"] }

/-- RETURN-004 of the spec scenario: precedence 1, overrides RETURN-002,
return-window condition. -/
def scn3Return4 : PolicyClause :=
  { clause_id := "RETURN-004", precedence := 1, overrides := ["RETURN-002"],
    conditions := ["within_return_window"] }

/-- The spec-scenario ruleset for the 45-days-after-purchase case. -/
def scn3Graph : PolicyGraph := ofClauses [scn3Return1, scn3Return2, scn3Return4]

/-- The context with `days_since_purchase = 45`. -/
def scn3Ctx : Context := { days_since_purchase := some 45 }

/-! ## C3: the 45-day return scenario -/

/-- C3: on the ruleset RETURN-001 (precedence 3, within_return_window),
RETURN-002 (precedence 4, no conditions) and RETURN-004 (precedence 1,
overrides RETURN-002, within_return_window), with
`days_since_purchase = 45`, `resolve_conflicts` of the three candidates
returns exactly `["RETURN-002"]`. -/
theorem claim3_return_scenario :
    resolve_conflicts scn3Graph ["RETURN-001", "RETURN-002", "RETURN-004"] scn3Ctx =
      some ["RETURN-002"] := by decide

/-! ## C9: totality of resolve_conflicts -/

/-- C9: `resolve_conflicts` never fails (returns `some`, i.e. does not
raise) whenever every candidate id is present in the clause store, and it
returns `some []` on the empty candidate list. -/
theorem claim9_resolve_total (g : PolicyGraph) (ids : List String) (ctx : Context)
    (h : ∀ cid ∈ ids, (alookup g.clauses cid).isSome) :
    (resolve_conflicts g ids ctx).isSome = true ∧
      resolve_conflicts g [] ctx = some [] := by
  constructor
  · have hall : ids.all (fun cid => (alookup g.clauses cid).isSome) = true := by
      rw [List.all_eq_true]
      intro x hx
      exact h x hx
    unfold resolve_conflicts
    split <;> simp [hall]
  · rfl

/-- Witness for C9 at a concrete one-clause store. -/
theorem claim9_resolve_total_witness :
    (resolve_conflicts scn3Graph ["RETURN-001"] scn3Ctx).isSome = true ∧
      resolve_conflicts scn3Graph [] scn3Ctx = some [] :=
  claim9_resolve_total scn3Graph ["RETURN-001"] scn3Ctx (by decide)

/-! ## C6: the interaction-graph entry built by add_clause -/

/-- A clause naming the same id in two different relation lists. -/
def dupClause : PolicyClause :=
  { clause_id := "POL-A", interacts_with := ["POL-X"], modifies := ["POL-X"] }

/-- C6 counterexample: the interaction-graph entry built by `add_clause` is
not deduplicated: a clause naming `POL-X` both in `interacts_with` and in
`modifies` gets an entry containing `POL-X` twice. -/
theorem claim6_counterexample_duplicate :
    (((alookup (PolicyGraph.add_clause emptyGraph dupClause).interaction_graph
        "POL-A").getD []).count "POL-X") = 2 := by decide

/-- C6 amended: the interaction-graph entry of a clause stored by
`add_clause` is the concatenation of its six relation lists; it contains
exactly the ids occurring in those lists (but with multiplicity, not
deduplicated). -/
theorem claim6_interaction_set_amended (g : PolicyGraph) (c : PolicyClause) (x : String) :
    x ∈ (alookup (PolicyGraph.add_clause g c).interaction_graph c.clause_id).getD [] ↔
      x ∈ c.interacts_with ∨ x ∈ c.modifies ∨ x ∈ c.modified_by ∨
        x ∈ c.overrides ∨ x ∈ c.overridden_by ∨ x ∈ c.requires := by
  unfold PolicyGraph.add_clause
  rw [alookup_aset_self]
  simp [List.mem_append, or_assoc]

/-! ## C7: lookups for an unknown id -/

/-- C7 counterexample: for an id absent from the clause store the
traversal returns the empty list silently; no error condition is
signalled (the embedded functions are total and yield `[]`). -/
theorem claim7_counterexample_silent_empty :
    alookup (emptyGraph).clauses "POL-MISSING" = none ∧
      get_related_policies emptyGraph "POL-MISSING" 3 = [] ∧
      (alookup (emptyGraph).interaction_graph "POL-MISSING").getD [] = [] := by decide

/-- C7 amended: looking up relations or reachability for an id not present
in the clause store yields an empty result (`[]`), not a `NotFound`
failure: `get_related_policies` guards on membership and returns `[]`. -/
theorem claim7_unknown_id_empty (g : PolicyGraph) (cid : String) (h : Nat)
    (hmiss : alookup g.clauses cid = none) :
    get_related_policies g cid h = [] := by
  unfold get_related_policies
  rw [hmiss]
  rfl

/-- Witness for C7 at the empty store. -/
theorem claim7_unknown_id_empty_witness :
    get_related_policies emptyGraph "POL-MISSING" 3 = [] :=
  claim7_unknown_id_empty emptyGraph "POL-MISSING" 3 (by decide)

/-! ## Bool membership helpers -/

theorem contains_eq_true_of_mem {l : List String} {a : String} (h : a ∈ l) :
    l.contains a = true :=
  List.elem_iff.mpr h

theorem contains_eq_false_of_not_mem {l : List String} {a : String} (h : a ∉ l) :
    l.contains a = false := by
  rw [Bool.eq_false_iff]
  intro hc
  exact h (List.elem_iff.mp hc)

theorem mem_of_contains_eq_true {l : List String} {a : String} (h : l.contains a = true) :
    a ∈ l :=
  List.elem_iff.mp h

/-! ## C1: the active set never holds two clauses related by overrides -/

/-- The loop of `resolve_conflicts` preserves the absence of override
pairs in the active set: pruning only shrinks the set, and a candidate is
appended only after every active clause it overrides has been removed and
no remaining active clause overrides it. -/
theorem resolveLoop_no_override_pair (g : PolicyGraph) (ctx : Context)
    (cands : List String) :
    ∀ active : List String,
      (∀ a ∈ active, ∀ b ∈ active, a ≠ b →
        ¬(a ∈ (clauseOf g b).overrides ∨ b ∈ (clauseOf g a).overrides)) →
      ∀ a ∈ resolveLoop g ctx cands active, ∀ b ∈ resolveLoop g ctx cands active,
        a ≠ b → ¬(a ∈ (clauseOf g b).overrides ∨ b ∈ (clauseOf g a).overrides) := by
  induction cands with
  | nil =>
    intro active hact
    simpa [resolveLoop] using hact
  | cons cid rest ih =>
    intro active hact
    simp only [resolveLoop]
    have hprsub : ∀ x ∈ active.filter
        (fun active_id => !((clauseOf g cid).overrides.contains active_id)), x ∈ active :=
      fun x hx => (List.mem_filter.mp hx).1
    have hpr : ∀ a ∈ active.filter
        (fun active_id => !((clauseOf g cid).overrides.contains active_id)),
        ∀ b ∈ active.filter
          (fun active_id => !((clauseOf g cid).overrides.contains active_id)),
        a ≠ b → ¬(a ∈ (clauseOf g b).overrides ∨ b ∈ (clauseOf g a).overrides) :=
      fun a haf b hbf hne => hact a (hprsub a haf) b (hprsub b hbf) hne
    split
    · exact ih _ hpr
    · split
      · apply ih
        intro a ha b hb hne
        rcases List.mem_append.mp ha with haf | hacid <;>
          rcases List.mem_append.mp hb with hbf | hbcid
        · exact hpr a haf b hbf hne
        · have hbeq : b = cid := by simpa using hbcid
          subst hbeq
          intro hcase
          rcases hcase with hab | hba
          · have := (List.mem_filter.mp haf).2
            rw [contains_eq_true_of_mem hab] at this
            simp at this
          · rename_i hno _
            rw [Bool.not_eq_true, List.any_eq_false] at hno
            exact hno a haf (contains_eq_true_of_mem hba)
        · have haeq : a = cid := by simpa using hacid
          subst haeq
          intro hcase
          rcases hcase with hab | hba
          · rename_i hno _
            rw [Bool.not_eq_true, List.any_eq_false] at hno
            exact hno b hbf (contains_eq_true_of_mem hab)
          · have := (List.mem_filter.mp hbf).2
            rw [contains_eq_true_of_mem hba] at this
            simp at this
        · have haeq : a = cid := by simpa using hacid
          have hbeq : b = cid := by simpa using hbcid
          exact absurd (haeq.trans hbeq.symm) hne
      · exact ih _ hpr

/-- C1: whatever the ruleset, candidate list and context, the active set
returned by `resolve_conflicts` never contains two distinct clauses A, B
with A in B's `overrides` list or B in A's `overrides` list. -/
theorem claim1_no_override_conflict (g : PolicyGraph) (ids : List String) (ctx : Context)
    (S : List String) (hS : resolve_conflicts g ids ctx = some S) :
    ∀ a ∈ S, ∀ b ∈ S, a ≠ b →
      ¬(a ∈ (clauseOf g b).overrides ∨ b ∈ (clauseOf g a).overrides) := by
  unfold resolve_conflicts at hS
  split at hS
  · cases hS
    intro a ha
    simp at ha
  · split at hS
    · cases hS
      exact resolveLoop_no_override_pair g ctx _ [] (by simp)
    · cases hS

/-- Witness for C1 at the spec scenario. -/
theorem claim1_no_override_conflict_witness :
    resolve_conflicts scn3Graph ["RETURN-001", "RETURN-002", "RETURN-004"] scn3Ctx =
        some ["RETURN-002"] ∧
      ∀ a ∈ ["RETURN-002"], ∀ b ∈ ["RETURN-002"], a ≠ b →
        ¬(a ∈ (clauseOf scn3Graph b).overrides ∨ b ∈ (clauseOf scn3Graph a).overrides) :=
  ⟨by decide,
    claim1_no_override_conflict scn3Graph ["RETURN-001", "RETURN-002", "RETURN-004"]
      scn3Ctx ["RETURN-002"] (by decide)⟩

/-! ## Two-candidate computations shared by C2 and C8 -/

theorem sortByPrecedence_pair_le (g : PolicyGraph) (a b : String)
    (h : precedenceOf g a ≤ precedenceOf g b) :
    sortByPrecedence g [a, b] = [a, b] := by
  simp [sortByPrecedence, orderedInsertByPrec, h]

theorem sortByPrecedence_pair_swap (g : PolicyGraph) (a b : String)
    (h : ¬ precedenceOf g a ≤ precedenceOf g b) :
    sortByPrecedence g [a, b] = [b, a] := by
  simp [sortByPrecedence, orderedInsertByPrec, h]

/-- Running the loop on sorted candidates `[a, b]` where `a` overrides `b`
(and `b` does not override `a`): `a` becomes active first and `b` is then
skipped by the `is_overridden` check. -/
theorem resolveLoop_pair_first_overrides (g : PolicyGraph) (ctx : Context) (a b : String)
    (ca cb : PolicyClause)
    (ha : alookup g.clauses a = some ca) (hb : alookup g.clauses b = some cb)
    (hconda : check_conditions ca ctx = true)
    (hov : b ∈ ca.overrides) (hnov : a ∉ cb.overrides) :
    resolveLoop g ctx [a, b] [] = [a] := by
  have hca : clauseOf g a = ca := by simp [clauseOf, ha]
  have hcb : clauseOf g b = cb := by simp [clauseOf, hb]
  simp [resolveLoop, hca, hcb, hconda, hov, hnov]

/-- Running the loop on sorted candidates `[b, a]` where the later
candidate `a` overrides `b`: `b` becomes active first, then step (a) of
the loop removes it when `a` is processed and `a` becomes active. -/
theorem resolveLoop_pair_second_removes (g : PolicyGraph) (ctx : Context) (a b : String)
    (ca cb : PolicyClause)
    (ha : alookup g.clauses a = some ca) (hb : alookup g.clauses b = some cb)
    (hconda : check_conditions ca ctx = true) (hcondb : check_conditions cb ctx = true)
    (hov : b ∈ ca.overrides) :
    resolveLoop g ctx [b, a] [] = [a] := by
  have hca : clauseOf g a = ca := by simp [clauseOf, ha]
  have hcb : clauseOf g b = cb := by simp [clauseOf, hb]
  simp [resolveLoop, hca, hcb, hconda, hcondb, hov]

/-! ## C2: lower-precedence clauses suppress the clauses they override -/

/-- A clause of precedence 1 overriding `B`, itself overridden by `B`. -/
def mutualA : PolicyClause := { clause_id := "A", precedence := 1, overrides := ["B"] }

/-- A clause of precedence 4 overriding `A`. -/
def mutualB : PolicyClause := { clause_id := "B", precedence := 4, overrides := ["A"] }

/-- C2 counterexample: with A (precedence 1, overrides B) and B
(precedence 4) and both condition lists empty (hence satisfied), the claim
promises `resolve([A, B]) = [A]`; but if B's own `overrides` list also
names A, step (a) of the loop lets the later-processed B evict the active
A, and the result is `[B]`. -/
theorem claim2_counterexample_mutual_override :
    (mutualA.precedence = 1 ∧ mutualB.precedence = 4 ∧ "B" ∈ mutualA.overrides ∧
        check_conditions mutualA scn3Ctx = true ∧ check_conditions mutualB scn3Ctx = true) ∧
      resolve_conflicts (ofClauses [mutualA, mutualB]) ["A", "B"] scn3Ctx = some ["B"] ∧
      resolve_conflicts (ofClauses [mutualA, mutualB]) ["A", "B"] scn3Ctx ≠ some ["A"] := by
  decide

/-- C2 amended: a clause with numerically lower precedence, if eligible,
suppresses a clause it overrides, independent of candidate order,
**provided the overridden clause does not itself list the other in its own
`overrides`**: then `resolve` returns exactly `[A]`. -/
theorem claim2_precedence_authority_amended (g : PolicyGraph) (a b : String) (ctx : Context)
    (ca cb : PolicyClause)
    (ha : alookup g.clauses a = some ca) (hb : alookup g.clauses b = some cb)
    (hprec : ca.precedence < cb.precedence)
    (hov : b ∈ ca.overrides) (hnov : a ∉ cb.overrides)
    (hconda : check_conditions ca ctx = true) (hcondb : check_conditions cb ctx = true)
    (ids : List String) (hids : ids = [a, b] ∨ ids = [b, a]) :
    resolve_conflicts g ids ctx = some [a] := by
  have hpa : precedenceOf g a = ca.precedence := by simp [precedenceOf, ha]
  have hpb : precedenceOf g b = cb.precedence := by simp [precedenceOf, hb]
  have hsort : sortByPrecedence g ids = [a, b] := by
    rcases hids with rfl | rfl
    · exact sortByPrecedence_pair_le g a b (by rw [hpa, hpb]; exact le_of_lt hprec)
    · exact sortByPrecedence_pair_swap g b a (by rw [hpa, hpb]; exact not_le_of_lt hprec)
  have hloop := resolveLoop_pair_first_overrides g ctx a b ca cb ha hb hconda hov hnov
  have hids' : ids.isEmpty = false := by rcases hids with rfl | rfl <;> rfl
  have hall : (ids.all fun cid => (alookup g.clauses cid).isSome) = true := by
    rcases hids with rfl | rfl <;> simp [ha, hb]
  unfold resolve_conflicts
  rw [hids']
  simp only [Bool.false_eq_true, if_false, hall, if_true, hsort, hloop]

/-- Witness for C2 (amended) on a two-clause store, candidates in reversed
order. -/
theorem claim2_precedence_authority_amended_witness :
    resolve_conflicts (ofClauses [scn3Return2, scn3Return4]) ["RETURN-002", "RETURN-004"]
      { days_since_purchase := some 10 } = some ["RETURN-004"] :=
  claim2_precedence_authority_amended (ofClauses [scn3Return2, scn3Return4])
    "RETURN-004" "RETURN-002" { days_since_purchase := some 10 }
    scn3Return4 scn3Return2 (by decide) (by decide) (by decide) (by decide) (by decide)
    (by decide) (by decide) ["RETURN-002", "RETURN-004"] (Or.inr rfl)

/-! ## C8: the step-(a) removal is not restricted to same-precedence ties -/

/-- A clause of precedence 4 whose `overrides` list names `B`. -/
def weakOverrider : PolicyClause := { clause_id := "A", precedence := 4, overrides := ["B"] }

/-- A clause of precedence 1 with no relations. -/
def strongPlain : PolicyClause := { clause_id := "B", precedence := 1 }

/-- C8 counterexample: B has strictly lower precedence (1 against 4) and
both clauses pass their (empty) conditions, yet B does **not** remain in
the active set: the later-processed A removes it in step (a) and the
result is `[A]`. -/
theorem claim8_counterexample_cross_precedence_removal :
    (strongPlain.precedence < weakOverrider.precedence ∧ "B" ∈ weakOverrider.overrides ∧
        check_conditions weakOverrider scn3Ctx = true ∧
        check_conditions strongPlain scn3Ctx = true) ∧
      resolve_conflicts (ofClauses [weakOverrider, strongPlain]) ["A", "B"] scn3Ctx =
        some ["A"] ∧
      "B" ∉ (["A"] : List String) := by
  decide

/-- C8 amended: the step-(a) removal fires whenever a later-processed
candidate's `overrides` list names a currently active clause, not only on
same-precedence ties; in particular, when B's precedence is strictly lower
than A's and A's `overrides` names B, with both conditions satisfied, B is
evicted and `resolve` returns `[A]`. -/
theorem claim8_override_removal_amended (g : PolicyGraph) (a b : String) (ctx : Context)
    (ca cb : PolicyClause)
    (ha : alookup g.clauses a = some ca) (hb : alookup g.clauses b = some cb)
    (hprec : cb.precedence < ca.precedence)
    (hov : b ∈ ca.overrides)
    (hconda : check_conditions ca ctx = true) (hcondb : check_conditions cb ctx = true)
    (ids : List String) (hids : ids = [a, b] ∨ ids = [b, a]) :
    resolve_conflicts g ids ctx = some [a] ∧ b ∉ ([a] : List String) := by
  have hpa : precedenceOf g a = ca.precedence := by simp [precedenceOf, ha]
  have hpb : precedenceOf g b = cb.precedence := by simp [precedenceOf, hb]
  have hne : b ≠ a := by
    intro hba
    subst hba
    rw [ha] at hb
    cases hb
    exact lt_irrefl _ hprec
  have hsort : sortByPrecedence g ids = [b, a] := by
    rcases hids with rfl | rfl
    · exact sortByPrecedence_pair_swap g a b (by rw [hpa, hpb]; exact not_le_of_lt hprec)
    · exact sortByPrecedence_pair_le g b a (by rw [hpa, hpb]; exact le_of_lt hprec)
  have hloop := resolveLoop_pair_second_removes g ctx a b ca cb ha hb hconda hcondb hov
  have hids' : ids.isEmpty = false := by rcases hids with rfl | rfl <;> rfl
  have hall : (ids.all fun cid => (alookup g.clauses cid).isSome) = true := by
    rcases hids with rfl | rfl <;> simp [ha, hb]
  constructor
  · unfold resolve_conflicts
    rw [hids']
    simp only [Bool.false_eq_true, if_false, hall, if_true, hsort, hloop]
  · simpa using hne

/-- Witness for C8 (amended) at the concrete two-clause store. -/
theorem claim8_override_removal_amended_witness :
    resolve_conflicts (ofClauses [weakOverrider, strongPlain]) ["A", "B"] scn3Ctx =
        some ["A"] ∧ "B" ∉ (["A"] : List String) :=
  claim8_override_removal_amended (ofClauses [weakOverrider, strongPlain]) "A" "B" scn3Ctx
    weakOverrider strongPlain (by decide) (by decide) (by decide) (by decide) (by decide)
    (by decide) ["A", "B"] (Or.inl rfl)

/-! ## C5: the shape of the rendered policy document -/

theorem categoryStep_key_mem (cats : List (String × List PolicyClause)) (c : PolicyClause) :
    ∀ p ∈ categoryStep cats c, p.1 = c.category ∨ ∃ q ∈ cats, q.1 = p.1 := by
  intro p hp
  unfold categoryStep at hp
  split at hp
  · rw [List.mem_map] at hp
    obtain ⟨q, hq, hfq⟩ := hp
    by_cases hqc : q.1 = c.category
    · rw [if_pos hqc] at hfq
      right
      exact ⟨q, hq, by rw [← hfq]⟩
    · rw [if_neg hqc] at hfq
      right
      exact ⟨q, hq, by rw [hfq]⟩
  · rcases List.mem_append.mp hp with hq | hnew
    · right
      exact ⟨p, hq, rfl⟩
    · left
      have : p = (c.category, [c]) := by simpa using hnew
      rw [this]

theorem categoryStep_clause_mem (cats : List (String × List PolicyClause)) (c : PolicyClause) :
    ∀ p ∈ categoryStep cats c, ∀ d ∈ p.2, d = c ∨ ∃ q ∈ cats, d ∈ q.2 := by
  intro p hp d hd
  unfold categoryStep at hp
  split at hp
  · rw [List.mem_map] at hp
    obtain ⟨q, hq, hfq⟩ := hp
    by_cases hqc : q.1 = c.category
    · rw [if_pos hqc] at hfq
      rw [← hfq] at hd
      rcases List.mem_append.mp hd with hdq | hdc
      · right
        exact ⟨q, hq, hdq⟩
      · left
        simpa using hdc
    · rw [if_neg hqc] at hfq
      right
      exact ⟨q, hq, by rw [hfq]; exact hd⟩
  · rcases List.mem_append.mp hp with hq | hnew
    · right
      exact ⟨p, hq, hd⟩
    · left
      have hpc : p = (c.category, [c]) := by simpa using hnew
      rw [hpc] at hd
      simpa using hd

theorem foldl_categoryStep_inv (cs : List PolicyClause) :
    ∀ acc : List (String × List PolicyClause),
      ∀ p ∈ cs.foldl categoryStep acc,
        ((∃ d ∈ cs, d.category = p.1) ∨ ∃ q ∈ acc, q.1 = p.1) ∧
          (∀ d ∈ p.2, d ∈ cs ∨ ∃ q ∈ acc, d ∈ q.2) := by
  induction cs with
  | nil =>
    intro acc p hp
    refine ⟨Or.inr ⟨p, hp, rfl⟩, fun d hd => Or.inr ⟨p, hp, hd⟩⟩
  | cons c rest ih =>
    intro acc p hp
    rw [List.foldl_cons] at hp
    have h := ih (categoryStep acc c) p hp
    constructor
    · rcases h.1 with ⟨d, hd, he⟩ | ⟨q, hq, hkey⟩
      · exact Or.inl ⟨d, List.mem_cons_of_mem c hd, he⟩
      · rcases categoryStep_key_mem acc c q hq with hk | ⟨q2, hq2, hk2⟩
        · exact Or.inl ⟨c, List.mem_cons_self c rest, by rw [← hk, hkey]⟩
        · exact Or.inr ⟨q2, hq2, by rw [hk2, hkey]⟩
    · intro d hd
      rcases h.2 d hd with hdrest | ⟨q, hq, hdq⟩
      · exact Or.inl (List.mem_cons_of_mem c hdrest)
      · rcases categoryStep_clause_mem acc c q hq d hdq with rfl | ⟨q2, hq2, hd2⟩
        · exact Or.inl (List.mem_cons_self d rest)
        · exact Or.inr ⟨q2, hq2, hd2⟩

theorem categoriesFold_inv (cs : List PolicyClause) :
    ∀ p ∈ categoriesFold cs, (∃ d ∈ cs, d.category = p.1) ∧ ∀ d ∈ p.2, d ∈ cs := by
  intro p hp
  have h := foldl_categoryStep_inv cs [] p hp
  constructor
  · rcases h.1 with h1 | ⟨q, hq, _⟩
    · exact h1
    · simp at hq
  · intro d hd
    rcases h.2 d hd with h2 | ⟨q, hq, _⟩
    · exact h2
    · simp at hq

theorem mem_orderedInsertById (c x : PolicyClause) (l : List PolicyClause) :
    x ∈ orderedInsertById c l ↔ x = c ∨ x ∈ l := by
  induction l with
  | nil => simp [orderedInsertById]
  | cons y ys ih =>
    rw [orderedInsertById]
    split
    · simp [List.mem_cons]
    · simp only [List.mem_cons, ih]
      tauto

theorem mem_sortByClauseId (x : PolicyClause) (l : List PolicyClause) :
    x ∈ sortByClauseId l ↔ x ∈ l := by
  induction l with
  | nil => simp [sortByClauseId]
  | cons y ys ih =>
    rw [sortByClauseId, mem_orderedInsertById]
    simp [ih]

/-- A clause carrying a nonempty conditions list. -/
def condClause : PolicyClause :=
  { clause_id := "POL-W", title := "Warranty Coverage", rule := "Limited warranty.",
    conditions := ["warranty_period"], category := "Warranty Policy" }

/-- C5 counterexample: the rendered document is not restricted to the
`[id] title` and `Rule:` lines: a clause with conditions also gets a
`Conditions:` line in the output of `generate_policy_text`. -/
theorem claim5_counterexample_conditions_emitted :
    "Conditions: warranty_period" ∈ policyTextPieces (ofClauses [condClause]) ∧
      generate_policy_text (ofClauses [condClause]) =
        "\nWarranty Policy\n===============\n\n[POL-W] Warranty Coverage\n" ++
          "Rule: Limited warranty.\nConditions: warranty_period" := by
  constructor
  · decide
  · rfl

/-- C5 amended: every entry of the rendered policy list is a category
header, a header underline, an `[id] title` line, a `Rule:` line, or — for
a clause with a nonempty conditions list — a `Conditions:` line; relations
and precedence never appear. -/
theorem claim5_policy_text_shape_amended (g : PolicyGraph) (piece : String)
    (hp : piece ∈ policyTextPieces g) :
    ∃ c ∈ g.clauses.map Prod.snd,
      piece = "\n" ++ c.category ∨ piece = eqUnderline c.category ∨
        piece = "\n[" ++ c.clause_id ++ "] " ++ c.title ∨
        piece = "Rule: " ++ c.rule ∨
        (c.conditions ≠ [] ∧
          piece = "Conditions: " ++ String.intercalate ", " c.conditions) := by
  unfold policyTextPieces at hp
  rw [List.mem_flatMap] at hp
  obtain ⟨bucket, hbucket, hpiece⟩ := hp
  have hinv := categoriesFold_inv _ bucket hbucket
  unfold categoryPieces at hpiece
  rcases List.mem_append.mp hpiece with hhead | hclause
  · obtain ⟨d, hd, hcat⟩ := hinv.1
    have hdmem : d ∈ g.clauses.map Prod.snd := hd
    rcases (by simpa using hhead : piece = "\n" ++ bucket.1 ∨ piece = eqUnderline bucket.1)
      with h1 | h2
    · exact ⟨d, hdmem, Or.inl (by rw [h1, hcat])⟩
    · exact ⟨d, hdmem, Or.inr (Or.inl (by rw [h2, hcat]))⟩
  · rw [List.mem_flatMap] at hclause
    obtain ⟨c, hc, hcp⟩ := hclause
    have hcmem : c ∈ bucket.2 := (mem_sortByClauseId c bucket.2).mp hc
    have hcs : c ∈ g.clauses.map Prod.snd := hinv.2 c hcmem
    refine ⟨c, hcs, ?_⟩
    unfold clausePieces at hcp
    by_cases hcond : c.conditions.isEmpty
    · rw [if_pos hcond] at hcp
      rcases (by simpa using hcp :
          piece = "\n[" ++ c.clause_id ++ "] " ++ c.title ∨ piece = "Rule: " ++ c.rule)
        with h3 | h4
      · exact Or.inr (Or.inr (Or.inl h3))
      · exact Or.inr (Or.inr (Or.inr (Or.inl h4)))
    · rw [if_neg hcond] at hcp
      rcases (by simpa using hcp :
          piece = "\n[" ++ c.clause_id ++ "] " ++ c.title ∨ piece = "Rule: " ++ c.rule ∨
            piece = "Conditions: " ++ String.intercalate ", " c.conditions)
        with h3 | h4 | h5
      · exact Or.inr (Or.inr (Or.inl h3))
      · exact Or.inr (Or.inr (Or.inr (Or.inl h4)))
      · exact Or.inr (Or.inr (Or.inr (Or.inr
          ⟨by simpa using hcond, h5⟩)))

/-- Witness for C5 (amended) at a concrete one-clause store. -/
theorem claim5_policy_text_shape_amended_witness :
    "Rule: Limited warranty." ∈ policyTextPieces (ofClauses [condClause]) ∧
      ∃ c ∈ (ofClauses [condClause]).clauses.map Prod.snd,
        "Rule: Limited warranty." = "\n" ++ c.category ∨
          "Rule: Limited warranty." = eqUnderline c.category ∨
          "Rule: Limited warranty." = "\n[" ++ c.clause_id ++ "] " ++ c.title ∨
          "Rule: Limited warranty." = "Rule: " ++ c.rule ∨
          (c.conditions ≠ [] ∧ "Rule: Limited warranty." =
            "Conditions: " ++ String.intercalate ", " c.conditions) :=
  ⟨by decide,
    claim5_policy_text_shape_amended (ofClauses [condClause]) "Rule: Limited warranty."
      (by decide)⟩

/-! ## Reachability basics for the traversal -/

theorem visitedContains_iff (vis : List (String × Nat)) (x : String) :
    visitedContains vis x = true ↔ ∃ k, (x, k) ∈ vis := by
  unfold visitedContains
  rw [List.any_eq_true]
  constructor
  · rintro ⟨⟨u, k⟩, hp, he⟩
    have hux : u = x := by simpa using he
    subst hux
    exact ⟨k, hp⟩
  · rintro ⟨k, hk⟩
    exact ⟨(x, k), hk, by simp⟩

theorem visitedContains_eq_false_iff (vis : List (String × Nat)) (x : String) :
    visitedContains vis x = false ↔ ∀ k, (x, k) ∉ vis := by
  rw [← Bool.not_eq_true, visitedContains_iff]
  push_neg
  rfl

theorem dball_mem_succ {g : PolicyGraph} {start u y : String} {n : Nat}
    (hu : u ∈ dball g start n) (hy : y ∈ adjOf g u) : y ∈ dball g start (n + 1) := by
  rw [dball, List.mem_append, List.mem_flatMap]
  exact Or.inr ⟨u, hu, hy⟩

theorem dball_subset_succ (g : PolicyGraph) (start : String) (n : Nat) :
    ∀ x ∈ dball g start n, x ∈ dball g start (n + 1) := by
  intro x hx
  rw [dball, List.mem_append]
  exact Or.inl hx

theorem dball_mono {g : PolicyGraph} {start : String} {n m : Nat} (h : n ≤ m) :
    ∀ x ∈ dball g start n, x ∈ dball g start m := by
  induction m with
  | zero =>
    intro x hx
    have : n = 0 := Nat.le_zero.mp h
    rw [← this]
    exact hx
  | succ m ih =>
    by_cases hnm : n ≤ m
    · intro x hx
      exact dball_subset_succ g start m x (ih hnm x hx)
    · have hn : n = m + 1 := Nat.le_antisymm h (Nat.not_le.mp hnm)
      rw [hn]
      exact fun x hx => hx

theorem foldr_max_le_of_mem {l : List (String × List String)} {p : String × List String}
    (hp : p ∈ l) :
    p.2.length ≤ l.foldr (fun q m => max q.2.length m) 0 := by
  induction l with
  | nil => cases hp
  | cons q rest ih =>
    rcases List.mem_cons.mp hp with rfl | hmem
    · exact le_max_left _ _
    · exact le_trans (ih hmem) (le_max_right _ _)

theorem adjOf_length_le (g : PolicyGraph) (x : String) :
    (adjOf g x).length ≤ maxAdjLen g := by
  unfold adjOf
  cases hl : alookup g.interaction_graph x with
  | none => simp
  | some l =>
    simp only [Option.getD_some]
    exact foldr_max_le_of_mem (alookup_mem hl)

theorem adjOf_subset_universe (g : PolicyGraph) (start x y : String)
    (hy : y ∈ adjOf g x) : y ∈ bfsUniverse g start := by
  unfold adjOf at hy
  cases hl : alookup g.interaction_graph x with
  | none =>
    rw [hl] at hy
    simp at hy
  | some l =>
    rw [hl] at hy
    simp only [Option.getD_some] at hy
    unfold bfsUniverse
    rw [List.mem_cons]
    refine Or.inr (List.mem_flatten.mpr ⟨l, ?_, hy⟩)
    exact List.mem_map.mpr ⟨(x, l), alookup_mem hl, rfl⟩

theorem length_filter_le_of_imp {l : List String} {p q : String → Bool}
    (himp : ∀ x, q x = true → p x = true) :
    (l.filter q).length ≤ (l.filter p).length := by
  induction l with
  | nil => simp
  | cons b rest ih =>
    rw [List.filter_cons, List.filter_cons]
    cases hqb : q b with
    | true =>
      rw [himp b hqb]
      simpa using ih
    | false =>
      cases hpb : p b <;> simp <;> omega

theorem length_filter_lt_of_mem {l : List String} {a : String} {p q : String → Bool}
    (ha : a ∈ l) (hpa : p a = true) (hqa : q a = false)
    (himp : ∀ x, q x = true → p x = true) :
    (l.filter q).length < (l.filter p).length := by
  induction l with
  | nil => cases ha
  | cons b rest ih =>
    rw [List.filter_cons, List.filter_cons]
    rcases List.mem_cons.mp ha with rfl | hmem
    · have hle := length_filter_le_of_imp (l := rest) himp
      rw [hpa, hqa]
      simp
      omega
    · have hlt := ih hmem
      cases hqb : q b with
      | true =>
        rw [himp b hqb]
        simp
        omega
      | false =>
        cases hpb : p b <;> simp <;> omega

/-! ## The traversal never exhausts its fuel -/

/-- With every queued id inside the finite universe and fuel at least
`(maxAdjLen+1) * |unvisited universe| + |queue|`, the loop drains its
queue: each skip shortens the queue, and each visit spends at most
`maxAdjLen` enqueues while shrinking the unvisited universe. -/
theorem bfs_isSome (g : PolicyGraph) (start : String) (M : Nat) :
    ∀ (fuel : Nat) (queue visited : List (String × Nat)) (related : List String),
      (∀ p ∈ queue, p.1 ∈ bfsUniverse g start) →
      (maxAdjLen g + 1) *
            ((bfsUniverse g start).filter (fun x => !(visitedContains visited x))).length +
          queue.length ≤ fuel →
      (bfsAux g start M fuel queue visited related).isSome = true := by
  intro fuel
  induction fuel with
  | zero =>
    intro queue visited related hq hfuel
    cases queue with
    | nil => simp [bfsAux]
    | cons p rest =>
      exfalso
      simp only [List.length_cons] at hfuel
      omega
  | succ fuel ih =>
    intro queue visited related hq hfuel
    cases queue with
    | nil => simp [bfsAux]
    | cons p rest =>
      obtain ⟨cur, hops⟩ := p
      simp only [bfsAux]
      split
      · apply ih rest visited related (fun q hq2 => hq q (List.mem_cons_of_mem _ hq2))
        simp only [List.length_cons] at hfuel
        omega
      · rename_i hskip
        rw [Bool.or_eq_true, not_or] at hskip
        have hnotvis : visitedContains visited cur = false :=
          Bool.not_eq_true _ ▸ Bool.eq_false_iff.mpr hskip.1
        have hcur_univ : cur ∈ bfsUniverse g start := hq (cur, hops) (List.mem_cons_self _ _)
        apply ih
        · intro q hq2
          rcases List.mem_append.mp hq2 with h1 | h2
          · exact hq q (List.mem_cons_of_mem _ h1)
          · rw [List.mem_map] at h2
            obtain ⟨y, hy, rfl⟩ := h2
            exact adjOf_subset_universe g start cur y (List.mem_of_mem_filter hy)
        · have hdec : (((bfsUniverse g start).filter
                (fun x => !(visitedContains ((cur, hops) :: visited) x))).length <
              ((bfsUniverse g start).filter
                (fun x => !(visitedContains visited x))).length) := by
            apply length_filter_lt_of_mem hcur_univ
            · rw [hnotvis]
              rfl
            · simp [visitedContains]
            · intro x hx
              simp only [visitedContains, List.any_cons, Bool.not_eq_true', Bool.or_eq_false_iff]
                at hx ⊢
              exact hx.2
          have hnbrs : ((adjOf g cur).filter
              (fun y => !(visitedContains ((cur, hops) :: visited) y))).length ≤ maxAdjLen g :=
            le_trans (List.length_filter_le _ _) (adjOf_length_le g cur)
          simp only [List.length_append, List.length_map, List.length_cons] at hfuel ⊢
          set K := maxAdjLen g with hK
          set A := ((bfsUniverse g start).filter
            (fun x => !(visitedContains visited x))).length with hA
          set B := ((bfsUniverse g start).filter
            (fun x => !(visitedContains ((cur, hops) :: visited) x))).length with hB
          have hmul : (K + 1) * (B + 1) ≤ (K + 1) * A := Nat.mul_le_mul_left _ hdec
          rw [Nat.mul_add, Nat.mul_one] at hmul
          omega

/-! ## Soundness of the traversal: everything reported is reachable -/

/-- Invariant induction for the traversal: queued and visited ids lie in
the ball of their hop count, and the related list is exactly the visited
ids other than the start. -/
theorem bfs_sound (g : PolicyGraph) (start : String) (M : Nat) :
    ∀ (fuel : Nat) (queue visited : List (String × Nat)) (related relF : List String)
      (visF : List (String × Nat)),
      bfsAux g start M fuel queue visited related = some (relF, visF) →
      (∀ p ∈ queue, p.1 ∈ dball g start p.2) →
      (∀ p ∈ visited, p.1 ∈ dball g start p.2) →
      (∀ v ∈ related, (∃ k, (v, k) ∈ visited) ∧ v ≠ start) →
      (∀ p ∈ visited, p.1 = start ∨ p.1 ∈ related) →
      (∀ p ∈ visF, p.1 ∈ dball g start p.2) ∧
        (∀ v ∈ relF, (∃ k, (v, k) ∈ visF) ∧ v ≠ start) ∧
        (∀ p ∈ visF, p.1 = start ∨ p.1 ∈ relF) := by
  intro fuel
  induction fuel with
  | zero =>
    intro queue visited related relF visF heq hq hv hr hvr
    cases queue with
    | nil =>
      simp only [bfsAux, Option.some.injEq, Prod.mk.injEq] at heq
      obtain ⟨rfl, rfl⟩ := heq
      exact ⟨hv, hr, hvr⟩
    | cons p rest => simp [bfsAux] at heq
  | succ fuel ih =>
    intro queue visited related relF visF heq hq hv hr hvr
    cases queue with
    | nil =>
      simp only [bfsAux, Option.some.injEq, Prod.mk.injEq] at heq
      obtain ⟨rfl, rfl⟩ := heq
      exact ⟨hv, hr, hvr⟩
    | cons p rest =>
      obtain ⟨cur, hops⟩ := p
      simp only [bfsAux] at heq
      split at heq
      · exact ih rest visited related relF visF heq
          (fun q hq2 => hq q (List.mem_cons_of_mem _ hq2)) hv hr hvr
      · have hcur : cur ∈ dball g start hops := hq (cur, hops) (List.mem_cons_self _ _)
        refine ih _ _ _ _ _ heq ?_ ?_ ?_ ?_
        · intro q hq2
          rcases List.mem_append.mp hq2 with h1 | h2
          · exact hq q (List.mem_cons_of_mem _ h1)
          · rw [List.mem_map] at h2
            obtain ⟨y, hy, rfl⟩ := h2
            exact dball_mem_succ hcur (List.mem_of_mem_filter hy)
        · intro p hp
          rcases List.mem_cons.mp hp with rfl | hmem
          · exact hcur
          · exact hv p hmem
        · intro v hvmem
          by_cases hcs : cur = start
          · rw [if_pos hcs] at hvmem
            obtain ⟨⟨k, hk⟩, hne⟩ := hr v hvmem
            exact ⟨⟨k, List.mem_cons_of_mem _ hk⟩, hne⟩
          · rw [if_neg hcs] at hvmem
            rcases List.mem_append.mp hvmem with hold | hnew
            · obtain ⟨⟨k, hk⟩, hne⟩ := hr v hold
              exact ⟨⟨k, List.mem_cons_of_mem _ hk⟩, hne⟩
            · have hvc : v = cur := by simpa using hnew
              subst hvc
              exact ⟨⟨hops, List.mem_cons_self _ _⟩, hcs⟩
        · intro p hp
          rcases List.mem_cons.mp hp with rfl | hmem
          · by_cases hcs : cur = start
            · exact Or.inl hcs
            · rw [if_neg hcs]
              exact Or.inr (List.mem_append.mpr (Or.inr (List.mem_singleton.mpr rfl)))
          · rcases hvr p hmem with hst | hrel
            · exact Or.inl hst
            · right
              by_cases hcs : cur = start
              · rw [if_pos hcs]
                exact hrel
              · rw [if_neg hcs]
                exact List.mem_append.mpr (Or.inl hrel)

/-! ## Completeness of the traversal: final-state invariants -/

theorem pairwise_map_const (l : List String) (m : Nat) :
    List.Pairwise (fun p q : String × Nat => p.2 ≤ q.2) (l.map (fun y => (y, m))) := by
  induction l with
  | nil => simp
  | cons y ys ih =>
    rw [List.map_cons, List.pairwise_cons]
    refine ⟨?_, ih⟩
    intro q hq
    rw [List.mem_map] at hq
    obtain ⟨z, _, rfl⟩ := hq
    exact le_rfl

/-- Final-state invariants of the traversal (completeness side).  The
queue keeps nondecreasing hop counts within a band of width one, visited
hop counts never exceed queued ones, and every neighbour of a visited
node is accounted for, either already visited or still queued, at a hop
count at most one higher.  At the end of the run this yields: visited
nodes persist, queued nodes within the bound get visited at a hop count
no larger, and the final visited set is closed under adjacency below the
hop bound. -/
theorem bfs_final_inv (g : PolicyGraph) (start : String) (M : Nat) :
    ∀ (fuel : Nat) (queue visited : List (String × Nat)) (related relF : List String)
      (visF : List (String × Nat)),
      bfsAux g start M fuel queue visited related = some (relF, visF) →
      List.Pairwise (fun p q : String × Nat => p.2 ≤ q.2) queue →
      (∀ p ∈ queue, ∀ q ∈ queue, p.2 ≤ q.2 + 1) →
      (∀ p ∈ visited, ∀ q ∈ queue, p.2 ≤ q.2) →
      (∀ p ∈ visited, p.2 ≤ M) →
      (∀ p ∈ visited, p.2 + 1 ≤ M → ∀ y ∈ adjOf g p.1,
        (∃ k, k ≤ p.2 + 1 ∧ (y, k) ∈ visited) ∨ (∃ k, k ≤ p.2 + 1 ∧ (y, k) ∈ queue)) →
      (∀ p ∈ visited, p ∈ visF) ∧
        (∀ u k, (u, k) ∈ queue → k ≤ M → ∃ k2, k2 ≤ k ∧ (u, k2) ∈ visF) ∧
        (∀ p ∈ visF, p.2 ≤ M) ∧
        (∀ p ∈ visF, p.2 + 1 ≤ M → ∀ y ∈ adjOf g p.1,
          ∃ k, k ≤ p.2 + 1 ∧ (y, k) ∈ visF) := by
  intro fuel
  induction fuel with
  | zero =>
    intro queue visited related relF visF heq hpair hband hvq hvM hadj
    cases queue with
    | nil =>
      simp only [bfsAux, Option.some.injEq, Prod.mk.injEq] at heq
      obtain ⟨rfl, rfl⟩ := heq
      refine ⟨fun p hp => hp, by simp, hvM, ?_⟩
      intro p hp hple y hy
      rcases hadj p hp hple y hy with hw | ⟨k, _, hk⟩
      · exact hw
      · simp at hk
    | cons p rest => simp [bfsAux] at heq
  | succ fuel ih =>
    intro queue visited related relF visF heq hpair hband hvq hvM hadj
    cases queue with
    | nil =>
      simp only [bfsAux, Option.some.injEq, Prod.mk.injEq] at heq
      obtain ⟨rfl, rfl⟩ := heq
      refine ⟨fun p hp => hp, by simp, hvM, ?_⟩
      intro p hp hple y hy
      rcases hadj p hp hple y hy with hw | ⟨k, _, hk⟩
      · exact hw
      · simp at hk
    | cons phead rest =>
      obtain ⟨cur, hops⟩ := phead
      have hpair_head := (List.pairwise_cons.mp hpair).1
      have hpair_rest := (List.pairwise_cons.mp hpair).2
      simp only [bfsAux] at heq
      split at heq
      · -- skipped entry
        rename_i hskip
        rw [Bool.or_eq_true] at hskip
        have hres := ih rest visited related relF visF heq hpair_rest
          (fun p hp q hq2 =>
            hband p (List.mem_cons_of_mem _ hp) q (List.mem_cons_of_mem _ hq2))
          (fun p hp q hq2 => hvq p hp q (List.mem_cons_of_mem _ hq2)) hvM ?_
        · refine ⟨hres.1, ?_, hres.2.2.1, hres.2.2.2⟩
          intro u k hk hkM
          rcases List.mem_cons.mp hk with hhd | hrest
          · have hu : u = cur ∧ k = hops := by
              exact by simpa using hhd
            obtain ⟨rfl, rfl⟩ := hu
            rcases hskip with hvis | hgt
            · obtain ⟨kc, hkc⟩ := (visitedContains_iff _ _).mp hvis
              have hkle : kc ≤ k := hvq (u, kc) hkc (u, k) (List.mem_cons_self _ _)
              exact ⟨kc, hkle, hres.1 (u, kc) hkc⟩
            · exfalso
              have : k > M := by simpa using hgt
              omega
          · exact hres.2.1 u k hrest hkM
        · -- transferred adjacency invariant
          intro p hp hple y hy
          rcases hadj p hp hple y hy with hw | ⟨k, hkle, hk⟩
          · exact Or.inl hw
          · rcases List.mem_cons.mp hk with hhd | hrest
            · have hyk : y = cur ∧ k = hops := by
                exact by simpa using hhd
              obtain ⟨rfl, rfl⟩ := hyk
              rcases hskip with hvis | hgt
              · obtain ⟨kc, hkc⟩ := (visitedContains_iff _ _).mp hvis
                have hkle2 : kc ≤ k := hvq (y, kc) hkc (y, k) (List.mem_cons_self _ _)
                exact Or.inl ⟨kc, le_trans hkle2 hkle, hkc⟩
              · exfalso
                have : k > M := by simpa using hgt
                omega
            · exact Or.inr ⟨k, hkle, hrest⟩
      · -- processed entry
        rename_i hskip
        rw [Bool.or_eq_true, not_or] at hskip
        have hnotvis : visitedContains visited cur = false :=
          Bool.not_eq_true _ ▸ Bool.eq_false_iff.mpr hskip.1
        have hhops : hops ≤ M := by simpa using hskip.2
        have hres := ih _ _ _ _ _ heq ?_ ?_ ?_ ?_ ?_
        · refine ⟨?_, ?_, hres.2.2.1, hres.2.2.2⟩
          · exact fun p hp => hres.1 p (List.mem_cons_of_mem _ hp)
          · intro u k hk hkM
            rcases List.mem_cons.mp hk with hhd | hrest
            · have hu : u = cur ∧ k = hops := by
                exact by simpa using hhd
              obtain ⟨rfl, rfl⟩ := hu
              exact ⟨k, le_rfl, hres.1 (u, k) (List.mem_cons_self _ _)⟩
            · exact hres.2.1 u k (List.mem_append.mpr (Or.inl hrest)) hkM
        · -- pairwise on the new queue
          rw [List.pairwise_append]
          refine ⟨hpair_rest, pairwise_map_const _ _, ?_⟩
          intro p hp q hq2
          rw [List.mem_map] at hq2
          obtain ⟨y, _, rfl⟩ := hq2
          exact hband p (List.mem_cons_of_mem _ hp) (cur, hops) (List.mem_cons_self _ _)
        · -- hop band on the new queue
          intro p hp q hq2
          rcases List.mem_append.mp hp with hp1 | hp2 <;>
            rcases List.mem_append.mp hq2 with hq1 | hq2'
          · exact hband p (List.mem_cons_of_mem _ hp1) q (List.mem_cons_of_mem _ hq1)
          · rw [List.mem_map] at hq2'
            obtain ⟨y, _, rfl⟩ := hq2'
            have := hband p (List.mem_cons_of_mem _ hp1) (cur, hops) (List.mem_cons_self _ _)
            simp only at this ⊢
            omega
          · rw [List.mem_map] at hp2
            obtain ⟨y, _, rfl⟩ := hp2
            have := hpair_head q hq1
            simp only at this ⊢
            omega
          · rw [List.mem_map] at hp2 hq2'
            obtain ⟨y, _, rfl⟩ := hp2
            obtain ⟨z, _, rfl⟩ := hq2'
            simp
        · -- visited hops below queued hops
          intro p hp q hq2
          rcases List.mem_cons.mp hp with rfl | hpv
          · rcases List.mem_append.mp hq2 with hq1 | hq2'
            · exact hpair_head q hq1
            · rw [List.mem_map] at hq2'
              obtain ⟨y, _, rfl⟩ := hq2'
              simp
          · rcases List.mem_append.mp hq2 with hq1 | hq2'
            · exact hvq p hpv q (List.mem_cons_of_mem _ hq1)
            · rw [List.mem_map] at hq2'
              obtain ⟨y, _, rfl⟩ := hq2'
              have := hvq p hpv (cur, hops) (List.mem_cons_self _ _)
              simp only at this ⊢
              omega
        · -- visited hops bounded by M
          intro p hp
          rcases List.mem_cons.mp hp with rfl | hpv
          · exact hhops
          · exact hvM p hpv
        · -- adjacency accounting on the new state
          intro p hp hple y hy
          rcases List.mem_cons.mp hp with rfl | hpv
          · cases hvy : visitedContains ((cur, hops) :: visited) y with
            | true =>
              obtain ⟨ky, hky⟩ := (visitedContains_iff _ _).mp hvy
              left
              refine ⟨ky, ?_, hky⟩
              rcases List.mem_cons.mp hky with hhd | hkv
              · have : ky = hops := by
                  have := congrArg Prod.snd hhd
                  simpa using this
                omega
              · have := hvq (y, ky) hkv (cur, hops) (List.mem_cons_self _ _)
                simp only at this ⊢
                omega
            | false =>
              right
              refine ⟨hops + 1, le_rfl, ?_⟩
              apply List.mem_append.mpr
              right
              rw [List.mem_map]
              refine ⟨y, ?_, rfl⟩
              rw [List.mem_filter]
              exact ⟨hy, by rw [hvy]; rfl⟩
          · rcases hadj p hpv hple y hy with ⟨k, hkle, hk⟩ | ⟨k, hkle, hk⟩
            · exact Or.inl ⟨k, hkle, List.mem_cons_of_mem _ hk⟩
            · rcases List.mem_cons.mp hk with hhd | hrest
              · have hyk : y = cur ∧ k = hops := by
                  exact by simpa using hhd
                obtain ⟨rfl, rfl⟩ := hyk
                exact Or.inl ⟨k, hkle, List.mem_cons_self _ _⟩
              · exact Or.inr ⟨k, hkle, List.mem_append.mpr (Or.inl hrest)⟩

/-! ## The characterisation of get_related_policies -/

/-- `get_related_policies` on a stored id returns exactly the ids within
`max_hops` interaction-graph hops of the start, except the start itself. -/
theorem get_related_policies_iff (g : PolicyGraph) (start : String) (M : Nat)
    (hs : (alookup g.clauses start).isSome = true) :
    ∀ v, v ∈ get_related_policies g start M ↔ v ≠ start ∧ v ∈ dball g start M := by
  have hq0 : ∀ p ∈ ([(start, 0)] : List (String × Nat)), p.1 ∈ bfsUniverse g start := by
    intro p hp
    have hp0 : p = (start, 0) := by simpa using hp
    rw [hp0]
    exact List.mem_cons_self _ _
  have hμ : (maxAdjLen g + 1) *
        ((bfsUniverse g start).filter (fun x => !(visitedContains [] x))).length +
      ([(start, 0)] : List (String × Nat)).length ≤ bfsFuel g start := by
    have hfilter : (bfsUniverse g start).filter (fun x => !(visitedContains [] x)) =
        bfsUniverse g start := List.filter_eq_self.mpr (fun x _ => rfl)
    rw [hfilter]
    simp [bfsFuel]
  have hsome := bfs_isSome g start M (bfsFuel g start) [(start, 0)] [] [] hq0 hμ
  obtain ⟨res, hres⟩ := Option.isSome_iff_exists.mp hsome
  obtain ⟨relF, visF⟩ := res
  have hget : get_related_policies g start M = relF := by
    unfold get_related_policies
    rw [if_pos hs, hres]
  have hsound := bfs_sound g start M _ _ _ _ _ _ hres
    (by
      intro p hp
      have hp0 : p = (start, 0) := by simpa using hp
      rw [hp0]
      simp [dball])
    (by simp) (by simp) (by simp)
  have hfinal := bfs_final_inv g start M _ _ _ _ _ _ hres
    (by simp) (by simp) (by simp) (by simp) (by simp)
  have hcomp : ∀ n, n ≤ M → ∀ v ∈ dball g start n, ∃ k, k ≤ n ∧ (v, k) ∈ visF := by
    intro n
    induction n with
    | zero =>
      intro _ v hv
      have hvs : v = start := by simpa [dball] using hv
      subst hvs
      exact hfinal.2.1 v 0 (List.mem_cons_self _ _) (Nat.zero_le M)
    | succ n ihn =>
      intro hle v hv
      rw [dball] at hv
      rcases List.mem_append.mp hv with hball | hstep
      · obtain ⟨k, hk, hmem⟩ := ihn (le_trans (Nat.le_succ n) hle) v hball
        exact ⟨k, le_trans hk (Nat.le_succ n), hmem⟩
      · rw [List.mem_flatMap] at hstep
        obtain ⟨u, hu, hy⟩ := hstep
        obtain ⟨ku, hku, humem⟩ := ihn (le_trans (Nat.le_succ n) hle) u hu
        have hkuM : ku + 1 ≤ M := by omega
        obtain ⟨k, hk, hmem⟩ := hfinal.2.2.2 (u, ku) humem hkuM v hy
        exact ⟨k, by omega, hmem⟩
  intro v
  rw [hget]
  constructor
  · intro hv
    obtain ⟨⟨k, hk⟩, hne⟩ := hsound.2.1 v hv
    refine ⟨hne, ?_⟩
    have hdb : v ∈ dball g start k := hsound.1 (v, k) hk
    have hkM : k ≤ M := hfinal.2.2.1 (v, k) hk
    exact dball_mono hkM v hdb
  · rintro ⟨hne, hdb⟩
    obtain ⟨k, _, hmem⟩ := hcomp M le_rfl v hdb
    rcases hsound.2.2 (v, k) hmem with hst | hrel
    · exact absurd hst hne
    · exact hrel

/-! ## C4: monotone bounded traversal -/

/-- C4: for a clause id present in the store and hop limits `h1 ≤ h2`, the
ids returned by `get_related_policies` at `h1` are a subset of those
returned at `h2`; and the traversal at `max_hops = 0` returns `[]`. -/
theorem claim4_related_monotone (g : PolicyGraph) (cid : String) (h1 h2 : Nat)
    (hs : (alookup g.clauses cid).isSome = true) (hle : h1 ≤ h2) :
    (∀ x ∈ get_related_policies g cid h1, x ∈ get_related_policies g cid h2) ∧
      get_related_policies g cid 0 = [] := by
  constructor
  · intro x hx
    rw [get_related_policies_iff g cid h1 hs] at hx
    rw [get_related_policies_iff g cid h2 hs]
    exact ⟨hx.1, dball_mono hle x hx.2⟩
  · cases hrel : get_related_policies g cid 0 with
    | nil => rfl
    | cons y ys =>
      exfalso
      have hy : y ∈ get_related_policies g cid 0 := by
        rw [hrel]
        exact List.mem_cons_self _ _
      rw [get_related_policies_iff g cid 0 hs y] at hy
      have : y = cid := by simpa [dball] using hy.2
      exact hy.1 this

/-- Witness for C4 at the spec-scenario store. -/
theorem claim4_related_monotone_witness :
    (∀ x ∈ get_related_policies scn3Graph "RETURN-002" 1,
        x ∈ get_related_policies scn3Graph "RETURN-002" 2) ∧
      get_related_policies scn3Graph "RETURN-002" 0 = [] :=
  claim4_related_monotone scn3Graph "RETURN-002" 1 2 (by decide) (by decide)

/-! ## C10: dangling references are reported by the traversal -/

/-- A clause whose relations point at a stored clause. -/
def ghostA : PolicyClause := { clause_id := "POL-A", interacts_with := ["POL-B"] }

/-- A stored clause whose relations point at an id absent from the store. -/
def ghostB : PolicyClause := { clause_id := "POL-B", modifies := ["POL-GHOST"] }

/-- A store containing a dangling reference two hops from `POL-A`. -/
def ghostGraph : PolicyGraph := ofClauses [ghostA, ghostB]

/-- C10: the traversal reports ids that are not clauses in the store: any
id reachable within `max_hops` interaction-graph hops from a stored start
clause is returned by `get_related_policies`, even when it is absent from
the Clause Store (a dangling reference). -/
theorem claim10_dangling_reported (g : PolicyGraph) (cid v : String) (h : Nat)
    (hs : (alookup g.clauses cid).isSome = true)
    (hdangling : alookup g.clauses v = none)
    (hreach : v ∈ dball g cid h) (hne : v ≠ cid) :
    v ∈ get_related_policies g cid h := by
  rw [get_related_policies_iff g cid h hs]
  exact ⟨hne, hreach⟩

/-- Witness for C10: `POL-GHOST` is absent from the store yet is reported
by the traversal from `POL-A` within 2 hops. -/
theorem claim10_dangling_reported_witness :
    "POL-GHOST" ∈ get_related_policies ghostGraph "POL-A" 2 :=
  claim10_dangling_reported ghostGraph "POL-A" "POL-GHOST" 2 (by decide) (by decide)
    (by decide) (by decide)

end TicketWorld
